import Mathlib

/-!
# Verification of the ETF analytics engine (`helpers_analysis.py`, `view.py`)

Shallow embedding of the repository's time-series analytics engine.

A pandas `Series` cell holds an IEEE-754 double.  The engine's claims hinge on
the distinction between ordinary (finite) values, infinities produced by
division by zero, and NaN ("undefined" / missing).  We embed a cell as `PVal`:
an exact rational, `+∞`, `-∞`, or NaN.  Arithmetic mirrors IEEE-754 special
value propagation exactly; finite arithmetic is exact (rounding is irrelevant
to every claim settled here, which concern definedness patterns, signs, and
exactly representable values).

`numpy.sqrt` / `Series.std`'s square root has no exact rational counterpart;
it is modelled by a parameter `s : ℚ → ℚ` about which theorems assume only
`IsSqrtModel s` (`s 0 = 0` and positivity on positives), properties the real
square root has on the finite nonnegative inputs at which the engine evaluates
it.  `idSqrt` is a concrete function satisfying `IsSqrtModel`, used to obtain
closed instances.

`pct_change` is modelled without NaN forward-filling (`fill_method=None`,
the current pandas default).
-/

/-- A pandas cell: an exact finite value, an infinity, or NaN. -/
inductive PVal where
  | fin : ℚ → PVal
  | pinf : PVal
  | ninf : PVal
  | nan : PVal
deriving DecidableEq

namespace PVal

/-- IEEE-754 addition on exact values. -/
def add : PVal → PVal → PVal
  | fin a, fin b => fin (a + b)
  | fin _, pinf => pinf
  | fin _, ninf => ninf
  | pinf, fin _ => pinf
  | ninf, fin _ => ninf
  | pinf, pinf => pinf
  | ninf, ninf => ninf
  | pinf, ninf => nan
  | ninf, pinf => nan
  | _, _ => nan

/-- IEEE-754 negation. -/
def neg : PVal → PVal
  | fin a => fin (-a)
  | pinf => ninf
  | ninf => pinf
  | nan => nan

/-- IEEE-754 subtraction (`x - y = x + (-y)` holds exactly in IEEE-754). -/
def sub (a b : PVal) : PVal := add a (neg b)

/-- IEEE-754 multiplication on exact values. -/
def mul : PVal → PVal → PVal
  | fin a, fin b => fin (a * b)
  | fin a, pinf => if a = 0 then nan else if 0 < a then pinf else ninf
  | fin a, ninf => if a = 0 then nan else if 0 < a then ninf else pinf
  | pinf, fin b => if b = 0 then nan else if 0 < b then pinf else ninf
  | ninf, fin b => if b = 0 then nan else if 0 < b then ninf else pinf
  | pinf, pinf => pinf
  | ninf, ninf => pinf
  | pinf, ninf => ninf
  | ninf, pinf => ninf
  | _, _ => nan

/-- IEEE-754 division on exact values: a nonzero finite value divided by
(positive) zero is a signed infinity, `0/0` and `∞/∞` are NaN. -/
def div : PVal → PVal → PVal
  | fin a, fin b =>
      if b = 0 then (if a = 0 then nan else if 0 < a then pinf else ninf)
      else fin (a / b)
  | fin _, pinf => fin 0
  | fin _, ninf => fin 0
  | pinf, fin b => if 0 ≤ b then pinf else ninf
  | ninf, fin b => if 0 ≤ b then ninf else pinf
  | _, _ => nan

/-- Maximum of two cells, NaN-absorbing (used only on non-NaN arguments by
the NaN-skipping aggregations below). -/
def pmax : PVal → PVal → PVal
  | nan, _ => nan
  | _, nan => nan
  | pinf, _ => pinf
  | _, pinf => pinf
  | ninf, y => y
  | x, ninf => x
  | fin x, fin y => fin (max x y)

/-- Minimum of two cells, NaN-absorbing. -/
def pmin : PVal → PVal → PVal
  | nan, _ => nan
  | _, nan => nan
  | ninf, _ => ninf
  | _, ninf => ninf
  | pinf, y => y
  | x, pinf => x
  | fin x, fin y => fin (min x y)

end PVal

open PVal

/-- `Series.shift(1)`: NaN in front, last element dropped. -/
def shift1 (xs : List PVal) : List PVal :=
  match xs with
  | [] => []
  | _ => PVal.nan :: xs.dropLast

/-- Accumulator loop of NaN-skipping `cumprod`: a NaN cell stays NaN in the
output but does not update the running product (pandas `skipna=True`). -/
def cumprodGo : PVal → List PVal → List PVal
  | _, [] => []
  | acc, PVal.nan :: r => PVal.nan :: cumprodGo acc r
  | acc, x :: r => mul acc x :: cumprodGo (mul acc x) r

/-- `Series.cumprod()` with pandas' default `skipna=True`. -/
def cumprodSkipNA (xs : List PVal) : List PVal := cumprodGo (PVal.fin 1) xs

/-- One step of a NaN-skipping running aggregation with binary operation `op`:
a NaN cell leaves the accumulator alone, a non-NaN cell replaces a NaN
accumulator and otherwise combines with it. -/
def skipStep (op : PVal → PVal → PVal) (acc x : PVal) : PVal :=
  match x, acc with
  | PVal.nan, a => a
  | y, PVal.nan => y
  | y, a => op a y

/-- Accumulator loop of `Series.expanding().max()`: running maximum of the
non-NaN cells seen so far, NaN while none has been seen (`min_periods=1`). -/
def emaxGo : PVal → List PVal → List PVal
  | _, [] => []
  | acc, x :: r => skipStep pmax acc x :: emaxGo (skipStep pmax acc x) r

/-- `Series.expanding().max()`. -/
def expandingMax (xs : List PVal) : List PVal := emaxGo PVal.nan xs

/-- Accumulator loop of `Series.min()`: NaN-skipping minimum, NaN when the
series holds no non-NaN cell. -/
def sminGo : PVal → List PVal → PVal
  | acc, [] => acc
  | acc, x :: r => sminGo (skipStep pmin acc x) r

/-- `Series.min()` (NaN-skipping; NaN on an empty series). -/
def seriesMin (xs : List PVal) : PVal := sminGo PVal.nan xs

/-- The rationals of a list of cells when every cell is finite, else `none`. -/
def finVals? : List PVal → Option (List ℚ)
  | [] => some []
  | PVal.fin q :: r => (finVals? r).map (q :: ·)
  | _ => none

/-- Mean of a list of rationals. -/
def qMean (l : List ℚ) : ℚ := l.sum / l.length

/-- Sample variance (`ddof=1`, as in `Series.std`). -/
def qVarSample (l : List ℚ) : ℚ :=
  (l.map (fun x => (x - qMean l) ^ 2)).sum / ((l.length : ℚ) - 1)

/-- Sample covariance (`ddof=1`) of two aligned rational lists. -/
def qCovSample (xs ys : List ℚ) : ℚ :=
  (List.zipWith (fun x y => (x - qMean xs) * (y - qMean ys)) xs ys).sum /
    ((xs.length : ℚ) - 1)

/-- The trailing window of `w` cells ending at position `i`. -/
def trailingWindow (w i : ℕ) (xs : List PVal) : List PVal :=
  (xs.take (i + 1)).drop (i + 1 - w)

/-- `Series.rolling(window=w)` applied to an aggregation `f`: positions with
fewer than `w` rows in the window (`i + 1 < w`) are NaN because the default
`min_periods` equals the window size. -/
def rollingApply (w : ℕ) (f : List PVal → PVal) (xs : List PVal) : List PVal :=
  (List.range xs.length).map fun i =>
    if i + 1 < w then PVal.nan else f (trailingWindow w i xs)

/-- `Series.rolling(window=w).mean()`: NaN propagates through the sum
(matching `min_periods = w`), otherwise the exact mean. -/
def rollingMean (w : ℕ) (xs : List PVal) : List PVal :=
  rollingApply w (fun win => div (win.foldr add (PVal.fin 0)) (PVal.fin w)) xs

/-- `Series.rolling(window=w).std()` (`ddof=1`): NaN for `w ≤ 1`; the square
root of the sample variance on an all-finite window (via the square-root model
`s`); NaN on a window holding NaN or an infinity (as variance computes
`∞ - ∞`). -/
def rollingStd (s : ℚ → ℚ) (w : ℕ) (xs : List PVal) : List PVal :=
  rollingApply w
    (fun win =>
      if w ≤ 1 then PVal.nan
      else match finVals? win with
        | some vals => PVal.fin (s (qVarSample vals))
        | none => PVal.nan)
    xs

/-- `calculate_returns` (`helpers_analysis.py`): `prices.pct_change()`, i.e.
`prices / prices.shift(1) - 1` elementwise. -/
def calculate_returns (prices : List PVal) : List PVal :=
  (List.zipWith div prices (shift1 prices)).map (fun v => sub v (PVal.fin 1))

/-- `calculate_cumulative_returns`: `(1 + calculate_returns(prices)).cumprod() - 1`. -/
def calculate_cumulative_returns (prices : List PVal) : List PVal :=
  (cumprodSkipNA ((calculate_returns prices).map (fun v => add (PVal.fin 1) v))).map
    (fun v => sub v (PVal.fin 1))

/-- `calculate_volatility`: `returns.rolling(window).std() * np.sqrt(window)`. -/
def calculate_volatility (s : ℚ → ℚ) (w : ℕ) (returns : List PVal) : List PVal :=
  (rollingStd s w returns).map (fun v => mul v (PVal.fin (s w)))

/-- `calculate_sharpe_ratio`:
`(excess.rolling(window).mean() * window) / (returns.rolling(window).std() * np.sqrt(window))`
with `excess = returns - risk_free_rate / window`. -/
def calculate_sharpe_ratio (s : ℚ → ℚ) (rf : ℚ) (w : ℕ) (returns : List PVal) :
    List PVal :=
  let excess_returns := returns.map (fun v => sub v (PVal.fin (rf / w)))
  List.zipWith div
    ((rollingMean w excess_returns).map (fun v => mul v (PVal.fin w)))
    ((rollingStd s w returns).map (fun v => mul v (PVal.fin (s w))))

/-- The mask assignment `downside_returns[downside_returns > 0] = 0`:
cells comparing `> 0` as true (positive finite values and `+∞`; NaN compares
false) are replaced by `0`. -/
def maskPos : PVal → PVal
  | PVal.fin q => if 0 < q then PVal.fin 0 else PVal.fin q
  | PVal.pinf => PVal.fin 0
  | PVal.ninf => PVal.ninf
  | PVal.nan => PVal.nan

/-- `calculate_sortino_ratio`: the Sharpe numerator divided by the annualized
rolling standard deviation of the returns with positive cells zeroed out
(computed on a copy of the input). -/
def calculate_sortino_ratio (s : ℚ → ℚ) (rf : ℚ) (w : ℕ) (returns : List PVal) :
    List PVal :=
  let excess_returns := returns.map (fun v => sub v (PVal.fin (rf / w)))
  let downside_returns := returns.map maskPos
  List.zipWith div
    ((rollingMean w excess_returns).map (fun v => mul v (PVal.fin w)))
    ((rollingStd s w downside_returns).map (fun v => mul v (PVal.fin (s w))))

/-- `calculate_max_drawdown`: `(prices / prices.expanding().max() - 1).min()`. -/
def calculate_max_drawdown (prices : List PVal) : PVal :=
  seriesMin
    ((List.zipWith div prices (expandingMax prices)).map (fun v => sub v (PVal.fin 1)))

/-- `normalize_minmax` (`view.py`): Python's `min`/`max` of a list fold the
binary operations over the elements and raise on an empty list (modelled by
`none`); equal extrema give the all-ones list, else the linear rescale. -/
def normalize_minmax (values : List ℚ) : Option (List ℚ) :=
  match values with
  | [] => none
  | v :: rest =>
      let min_val := rest.foldl min v
      let max_val := rest.foldl max v
      if min_val = max_val then some (List.replicate (values.length) (1 : ℚ))
      else some (values.map (fun x => (x - min_val) / (max_val - min_val)))

/-- A row of the long-format price table (`date`, `ticker`, `close`). -/
structure Row where
  date : ℤ
  ticker : String
  close : PVal
deriving DecidableEq

/-- Index lookup used when a column is assigned into a DataFrame: value of the
first entry carrying the date, NaN when the date is absent. -/
def lookupDate (col : List (ℤ × PVal)) (d : ℤ) : PVal :=
  match col.find? (fun p => p.1 == d) with
  | some p => p.2
  | none => PVal.nan

/-- Column-assembly loop of `normalize_prices`: `normalized[ticker] = series`.
The first assignment into the fresh empty DataFrame adopts the series' index;
later assignments are reindexed to it (missing dates become NaN, extra dates
are dropped).  `tdOf t` is the ticker's `(date, close)` rows of the sorted
table; an empty selection makes `ticker_data.iloc[0]` raise `IndexError`,
modelled by `none`. -/
def normalizeGo (tdOf : String → List (ℤ × PVal)) :
    List String → Option (List ℤ) → List (String × List PVal) →
    Option (List ℤ × List (String × List PVal))
  | [], idx, cols => some (idx.getD [], cols)
  | t :: rest, idx, cols =>
      match tdOf t with
      | [] => none
      | (d₀, c₀) :: tl =>
          let norm := ((d₀, c₀) :: tl).map
            (fun p => (p.1, mul (div p.2 c₀) (PVal.fin 100)))
          match idx with
          | none => normalizeGo tdOf rest (some (norm.map (·.1)))
              (cols ++ [(t, norm.map (·.2))])
          | some is => normalizeGo tdOf rest (some is)
              (cols ++ [(t, is.map (fun d => lookupDate norm d))])

/-- `normalize_prices` (`helpers_analysis.py`): sort the table by date
(`sort_values("date")`, modelled by insertion sort on the date key), then for
each requested ticker select its rows, set the date index, divide by the first
row (`iloc[0]`, raising on an empty selection) times 100, and assign the
column into the output frame. -/
def normalize_prices (df : List Row) (tickers : List String) :
    Option (List ℤ × List (String × List PVal)) :=
  let sorted := List.insertionSort (fun a b => a.date ≤ b.date) df
  normalizeGo
    (fun t => (sorted.filter (fun r => r.ticker == t)).map (fun r => (r.date, r.close)))
    tickers none []

/-- A store of pandas Series objects, used to make aliasing and in-place
mutation explicit where the source performs them. -/
abbrev Store := List (List PVal)

/-- Heap-passing translation of `calculate_sortino_ratio`, line by line:
the function receives the position `rid` of the caller's returns object in
the store; `downside_returns = returns.copy()` allocates a fresh object at
the end of the store; the mask assignment
`downside_returns[downside_returns > 0] = 0` mutates that fresh object in
place; the result is built from the mutated copy.  Returns the store after
the call together with the result series. -/
def calculate_sortino_ratio_impl (s : ℚ → ℚ) (rf : ℚ) (w : ℕ)
    (store : Store) (rid : ℕ) : Store × List PVal :=
  let returns := store.getD rid []
  let excess_returns := returns.map (fun v => sub v (PVal.fin (rf / w)))
  let store₁ := store ++ [returns]
  let did := store.length
  let store₂ := store₁.set did ((store₁.getD did []).map maskPos)
  let downside_returns := store₂.getD did []
  let downside_std :=
    (rollingStd s w downside_returns).map (fun v => mul v (PVal.fin (s w)))
  (store₂,
    List.zipWith div
      ((rollingMean w excess_returns).map (fun v => mul v (PVal.fin w)))
      downside_std)

/-- Modelled from the spec: no source file of the repository implements beta
(§4.6 describes it as part of the engine, but `helpers_analysis.py` and its
callers contain no such function).  Per the spec's words: rolling covariance
between the instrument's return series and the market return series over the
trailing `window`, divided by the rolling variance of the market returns over
the same window; the two series are aligned by date, and misaligned or
missing market data for a date yields undefined beta at that position; the
first `window - 1` positions are undefined; a zero market variance yields
undefined (§7). -/
def beta (w : ℕ) (r mkt : List (ℤ × PVal)) : List (ℤ × PVal) :=
  (List.range r.length).map fun i =>
    let d := (r.getD i (0, PVal.nan)).1
    if i + 1 < w then (d, PVal.nan)
    else
      let win := (r.take (i + 1)).drop (i + 1 - w)
      match finVals? (win.map (·.2)),
            finVals? (win.map (fun p => lookupDate mkt p.1)) with
      | some rv, some mv =>
          if qVarSample mv = 0 then (d, PVal.nan)
          else (d, PVal.fin (qCovSample rv mv / qVarSample mv))
      | _, _ => (d, PVal.nan)

/-- Properties of the exact square root actually used by the theorems:
`np.sqrt 0 = 0` and positivity on positive inputs. -/
def IsSqrtModel (s : ℚ → ℚ) : Prop := s 0 = 0 ∧ ∀ q : ℚ, 0 < q → 0 < s q

/-- A concrete function satisfying `IsSqrtModel`, standing in for `np.sqrt`
in closed instances (only the `IsSqrtModel` properties of it are ever used). -/
def idSqrt : ℚ → ℚ := fun q => q

/-- Number of defined (non-NaN) cells of a series (`Series.count()`). -/
def countDefined (xs : List PVal) : ℕ :=
  xs.countP (fun v => decide (v ≠ PVal.nan))

/-- Spec-side formula (§4.1, §8): the product of `1 + r_k` over the defined
returns up to and including the current position.  Written from the spec's
words, to be compared with the source-derived `calculate_cumulative_returns`. -/
def specProdDefined (xs : List PVal) : ℚ :=
  xs.foldr (fun v acc => match v with | PVal.fin q => (1 + q) * acc | _ => acc) 1

/-- Rational running maximum with seed, mirroring `emaxGo` on all-finite data. -/
def qPrefixMax : ℚ → List ℚ → List ℚ
  | _, [] => []
  | m, x :: r => max m x :: qPrefixMax (max m x) r

/-- Product of the finite cells of a list (NaN cells contribute nothing),
mirroring what NaN-skipping `cumprod` accumulates. -/
def finProd (xs : List PVal) : ℚ :=
  xs.foldr (fun v acc => match v with | PVal.fin q => q * acc | _ => acc) 1

/-- Python's built-in `min` on a nonempty list (the `0` for `[]` is junk:
Python raises there, and no theorem uses it). -/
def pyMin : List ℚ → ℚ
  | [] => 0
  | v :: r => r.foldl min v

/-- Python's built-in `max` on a nonempty list. -/
def pyMax : List ℚ → ℚ
  | [] => 0
  | v :: r => r.foldl max v

/-- Rational drawdown list with running-maximum seed `m`:
`q / runningMax - 1` pointwise, mirroring `prices / expanding_max - 1` on
all-finite positive data. -/
def qDrawdowns (m : ℚ) (qs : List ℚ) : List ℚ :=
  List.zipWith (fun q mx => q / mx - 1) qs (qPrefixMax m qs)

theorem isSqrtModel_idSqrt : IsSqrtModel idSqrt :=
  ⟨rfl, fun _ h => h⟩

/-! ## Basic propagation and indexing lemmas -/

theorem add_nan_left (y : PVal) : add PVal.nan y = PVal.nan := by
  cases y <;> rfl

theorem add_nan_right (x : PVal) : add x PVal.nan = PVal.nan := by
  cases x <;> rfl

theorem sub_nan_left (y : PVal) : sub PVal.nan y = PVal.nan := by
  cases y <;> rfl

theorem mul_nan_left (y : PVal) : mul PVal.nan y = PVal.nan := by
  cases y <;> rfl

theorem div_nan_left (y : PVal) : div PVal.nan y = PVal.nan := by
  cases y <;> rfl

theorem div_nan_right (x : PVal) : div x PVal.nan = PVal.nan := by
  cases x <;> rfl

theorem sub_fin_fin (a b : ℚ) : sub (PVal.fin a) (PVal.fin b) = PVal.fin (a - b) := by
  show PVal.fin (a + -b) = PVal.fin (a - b)
  rw [sub_eq_add_neg]

theorem div_fin_fin (a b : ℚ) (hb : b ≠ 0) :
    div (PVal.fin a) (PVal.fin b) = PVal.fin (a / b) := by
  simp [div, hb]

theorem getD_map_of_lt {α β : Type} (f : α → β) (l : List α) (i : ℕ)
    (h : i < l.length) (d : β) (d' : α) :
    (l.map f).getD i d = f (l.getD i d') := by
  have h' : i < (l.map f).length := by simpa using h
  rw [List.getD_eq_getElem _ _ h', List.getD_eq_getElem _ _ h]
  simp

theorem getD_zipWith_of_lt {α β γ : Type} (f : α → β → γ) (a : List α)
    (b : List β) (i : ℕ) (ha : i < a.length) (hb : i < b.length)
    (d : γ) (da : α) (db : β) :
    (List.zipWith f a b).getD i d = f (a.getD i da) (b.getD i db) := by
  have h' : i < (List.zipWith f a b).length := by
    rw [List.length_zipWith]; omega
  rw [List.getD_eq_getElem _ _ h', List.getD_eq_getElem _ _ ha,
    List.getD_eq_getElem _ _ hb]
  exact List.getElem_zipWith

theorem length_rollingApply (w : ℕ) (f : List PVal → PVal) (xs : List PVal) :
    (rollingApply w f xs).length = xs.length := by
  simp [rollingApply]

theorem getD_rollingApply (w : ℕ) (f : List PVal → PVal) (xs : List PVal)
    (i : ℕ) (h : i < xs.length) :
    (rollingApply w f xs).getD i PVal.nan
      = if i + 1 < w then PVal.nan else f (trailingWindow w i xs) := by
  have h' : i < (rollingApply w f xs).length := by rw [length_rollingApply]; exact h
  rw [List.getD_eq_getElem _ _ h']
  simp [rollingApply]

theorem length_shift1 (xs : List PVal) : (shift1 xs).length = xs.length := by
  cases xs with
  | nil => rfl
  | cons x r => simp [shift1]

theorem length_calculate_returns (P : List PVal) :
    (calculate_returns P).length = P.length := by
  simp [calculate_returns, length_shift1]

theorem length_cumprodGo (acc : PVal) (xs : List PVal) :
    (cumprodGo acc xs).length = xs.length := by
  induction xs generalizing acc with
  | nil => rfl
  | cons x r ih => cases x <;> simp [cumprodGo, ih]

theorem length_calculate_cumulative_returns (P : List PVal) :
    (calculate_cumulative_returns P).length = P.length := by
  simp [calculate_cumulative_returns, cumprodSkipNA, length_cumprodGo,
    length_calculate_returns]

theorem length_rollingMean (w : ℕ) (xs : List PVal) :
    (rollingMean w xs).length = xs.length := length_rollingApply ..

theorem length_rollingStd (s : ℚ → ℚ) (w : ℕ) (xs : List PVal) :
    (rollingStd s w xs).length = xs.length := length_rollingApply ..

theorem length_calculate_volatility (s : ℚ → ℚ) (w : ℕ) (r : List PVal) :
    (calculate_volatility s w r).length = r.length := by
  simp [calculate_volatility, length_rollingStd]

theorem length_calculate_sharpe_ratio (s : ℚ → ℚ) (rf : ℚ) (w : ℕ)
    (r : List PVal) : (calculate_sharpe_ratio s rf w r).length = r.length := by
  simp [calculate_sharpe_ratio, length_rollingMean, length_rollingStd]

theorem length_calculate_sortino_ratio (s : ℚ → ℚ) (rf : ℚ) (w : ℕ)
    (r : List PVal) : (calculate_sortino_ratio s rf w r).length = r.length := by
  simp [calculate_sortino_ratio, length_rollingMean, length_rollingStd]

/-! ## C3: insufficient-data positions of the rolling metrics -/

theorem rolling_metrics_aux (s : ℚ → ℚ) (rf : ℚ) (w : ℕ) (r : List PVal)
    (i : ℕ) (hi : i < r.length) (hiw : i + 1 < w) :
    (calculate_volatility s w r).getD i PVal.nan = PVal.nan
    ∧ (calculate_sharpe_ratio s rf w r).getD i PVal.nan = PVal.nan
    ∧ (calculate_sortino_ratio s rf w r).getD i PVal.nan = PVal.nan := by
  have hstd : ∀ xs : List PVal, xs.length = r.length →
      (rollingStd s w xs).getD i PVal.nan = PVal.nan := by
    intro xs hxs
    rw [rollingStd, getD_rollingApply _ _ _ _ (hxs ▸ hi), if_pos hiw]
  have hmean : ∀ xs : List PVal, xs.length = r.length →
      (rollingMean w xs).getD i PVal.nan = PVal.nan := by
    intro xs hxs
    rw [rollingMean, getD_rollingApply _ _ _ _ (hxs ▸ hi), if_pos hiw]
  refine ⟨?_, ?_, ?_⟩
  · simp only [calculate_volatility]
    rw [getD_map_of_lt _ _ _ (by rw [length_rollingStd]; exact hi) _ PVal.nan,
      hstd r rfl, mul_nan_left]
  · simp only [calculate_sharpe_ratio]
    rw [getD_zipWith_of_lt _ _ _ i
        (by simp [length_rollingMean]; exact hi)
        (by simp [length_rollingStd]; exact hi) PVal.nan PVal.nan PVal.nan,
      getD_map_of_lt _ _ _ (by simp [length_rollingMean]; exact hi) _ PVal.nan,
      getD_map_of_lt _ _ _ (by simp [length_rollingStd]; exact hi) _ PVal.nan,
      hstd r rfl, hmean _ (by simp), mul_nan_left, mul_nan_left, div_nan_left]
  · simp only [calculate_sortino_ratio]
    rw [getD_zipWith_of_lt _ _ _ i
        (by simp [length_rollingMean]; exact hi)
        (by simp [length_rollingStd]; exact hi) PVal.nan PVal.nan PVal.nan,
      getD_map_of_lt _ _ _ (by simp [length_rollingMean]; exact hi) _ PVal.nan,
      getD_map_of_lt _ _ _ (by simp [length_rollingStd]; exact hi) _ PVal.nan,
      hstd _ (by simp), hmean _ (by simp), mul_nan_left, mul_nan_left, div_nan_left]

/-- C3: for every return series and window `W`, each rolling metric
(volatility, Sharpe, Sortino) is undefined (NaN) at every position strictly
below `W - 1`, and a series shorter than `W` yields an all-undefined result. -/
theorem rolling_insufficient_data (s : ℚ → ℚ) (rf : ℚ) (w : ℕ) (r : List PVal) :
    (∀ i, i < r.length → i + 1 < w →
      (calculate_volatility s w r).getD i PVal.nan = PVal.nan
      ∧ (calculate_sharpe_ratio s rf w r).getD i PVal.nan = PVal.nan
      ∧ (calculate_sortino_ratio s rf w r).getD i PVal.nan = PVal.nan)
    ∧ (r.length < w →
      (∀ v ∈ calculate_volatility s w r, v = PVal.nan)
      ∧ (∀ v ∈ calculate_sharpe_ratio s rf w r, v = PVal.nan)
      ∧ (∀ v ∈ calculate_sortino_ratio s rf w r, v = PVal.nan)) := by
  refine ⟨fun i hi hiw => rolling_metrics_aux s rf w r i hi hiw, fun hlen => ?_⟩
  refine ⟨?_, ?_, ?_⟩ <;> intro v hv <;> rw [List.mem_iff_getElem] at hv
  · obtain ⟨i, hil, rfl⟩ := hv
    have hi : i < r.length := by rwa [length_calculate_volatility] at hil
    have := (rolling_metrics_aux s rf w r i hi (by omega)).1
    rwa [List.getD_eq_getElem _ _ hil] at this
  · obtain ⟨i, hil, rfl⟩ := hv
    have hi : i < r.length := by rwa [length_calculate_sharpe_ratio] at hil
    have := (rolling_metrics_aux s rf w r i hi (by omega)).2.1
    rwa [List.getD_eq_getElem _ _ hil] at this
  · obtain ⟨i, hil, rfl⟩ := hv
    have hi : i < r.length := by rwa [length_calculate_sortino_ratio] at hil
    have := (rolling_metrics_aux s rf w r i hi (by omega)).2.2
    rwa [List.getD_eq_getElem _ _ hil] at this

theorem rolling_insufficient_data_witness :
    ((0 : ℕ) < 1 ∧ (0 : ℕ) + 1 < 252
      ∧ (calculate_volatility idSqrt 252 [PVal.fin 0]).getD 0 PVal.nan = PVal.nan)
    ∧ ((1 : ℕ) < 252
      ∧ ∀ v ∈ calculate_sharpe_ratio idSqrt (1/50) 252 [PVal.fin 0], v = PVal.nan) :=
  ⟨⟨by decide, by decide,
    ((rolling_insufficient_data idSqrt (1/50) 252 [PVal.fin 0]).1 0 (by decide)
      (by decide)).1⟩,
   by decide,
   ((rolling_insufficient_data idSqrt (1/50) 252 [PVal.fin 0]).2 (by decide)).2.1⟩

/-! ## C5: empty input behaviour of the engine -/

/-- C5: every series-level engine function accepts an empty input and returns
an empty series (or NaN for the scalar max drawdown) — but `normalize_prices`
on an empty price table with a requested ticker reaches `ticker_data.iloc[0]`
on an empty selection, which raises `IndexError` (modelled by `none`),
contradicting the claim that no engine function raises on empty input. -/
theorem engine_empty_input (s : ℚ → ℚ) (rf : ℚ) (w : ℕ) :
    normalize_prices [] ["AAA"] = none
    ∧ calculate_returns [] = []
    ∧ calculate_cumulative_returns [] = []
    ∧ calculate_volatility s w [] = []
    ∧ calculate_sharpe_ratio s rf w [] = []
    ∧ calculate_sortino_ratio s rf w [] = []
    ∧ calculate_max_drawdown [] = PVal.nan :=
  ⟨rfl, rfl, rfl, rfl, rfl, rfl, rfl⟩

/-! ## C4: Sharpe ratio at zero rolling volatility -/

/-- C4 counterexample: on the constant price series `[100, 100, 100, 100]`
with the default risk-free rate `0.02` and window `2`, the rolling standard
deviation is `0` from position 2 on, and the Sharpe ratio there is `-∞`
(float division of the negative excess-return numerator by zero), not
undefined (NaN) as the claim states. -/
theorem sharpe_zero_volatility_cex :
    calculate_sharpe_ratio idSqrt (1/50) 2 (calculate_returns
        [PVal.fin 100, PVal.fin 100, PVal.fin 100, PVal.fin 100])
      = [PVal.nan, PVal.nan, PVal.ninf, PVal.ninf]
    ∧ PVal.ninf ≠ PVal.nan := by
  constructor
  · norm_num [calculate_sharpe_ratio, calculate_returns, shift1, rollingMean,
      rollingStd, rollingApply, trailingWindow, finVals?, qVarSample, qMean,
      idSqrt, PVal.div, PVal.mul, PVal.add, PVal.sub, PVal.neg,
      List.range_succ]
  · exact fun h => PVal.noConfusion h

/-- C4 amended: at a position whose rolling standard deviation of raw returns
is zero and whose rolling mean of excess returns is a finite `a`, the Sharpe
ratio is the IEEE result of dividing `a·w` by zero: `+∞` for a positive
numerator, `-∞` for a negative one, and NaN only when the numerator is zero
too — never a finite value and never an error. -/
theorem sharpe_zero_volatility (s : ℚ → ℚ) (rf : ℚ) (w : ℕ) (r : List PVal)
    (i : ℕ) (hi : i < r.length) (a : ℚ)
    (hstd : (rollingStd s w r).getD i PVal.nan = PVal.fin 0)
    (hmean : (rollingMean w (r.map (fun v => sub v (PVal.fin (rf / w))))).getD
        i PVal.nan = PVal.fin a) :
    (calculate_sharpe_ratio s rf w r).getD i PVal.nan
      = if a * w = 0 then PVal.nan
        else if 0 < a * w then PVal.pinf else PVal.ninf := by
  simp only [calculate_sharpe_ratio]
  rw [getD_zipWith_of_lt _ _ _ i
      (by simp [length_rollingMean]; exact hi)
      (by simp [length_rollingStd]; exact hi) PVal.nan PVal.nan PVal.nan,
    getD_map_of_lt _ _ _ (by simp [length_rollingMean]; exact hi) _ PVal.nan,
    getD_map_of_lt _ _ _ (by simp [length_rollingStd]; exact hi) _ PVal.nan,
    hstd, hmean]
  show div (PVal.fin (a * w)) (PVal.fin (0 * s w)) = _
  rw [zero_mul]
  simp [PVal.div]

theorem sharpe_zero_volatility_witness :
    (calculate_sharpe_ratio idSqrt (1/50) 2
        [PVal.nan, PVal.fin 0, PVal.fin 0, PVal.fin 0]).getD 2 PVal.nan
      = PVal.ninf := by
  have h := sharpe_zero_volatility idSqrt (1/50) 2
      [PVal.nan, PVal.fin 0, PVal.fin 0, PVal.fin 0] 2 (by decide) (-1/100)
      (by norm_num [rollingStd, rollingApply, trailingWindow, finVals?,
        qVarSample, qMean, idSqrt, List.range_succ])
      (by norm_num [rollingMean, rollingApply, trailingWindow, PVal.sub,
        PVal.add, PVal.neg, PVal.div, List.range_succ])
  rw [h]
  norm_num

/-! ## C1: elementwise specification of `calculate_returns` -/

theorem shift1_getD (P : List PVal) (i : ℕ) (h : i + 1 < P.length) :
    (shift1 P).getD (i + 1) PVal.nan = P.getD i PVal.nan := by
  match P with
  | [] => simp at h
  | p :: rest =>
    show (PVal.nan :: (p :: rest).dropLast).getD (i + 1) PVal.nan = _
    have hd : i < ((p :: rest).dropLast).length := by
      simp only [List.length_dropLast]
      simpa using Nat.lt_pred_iff_succ_lt.mpr h
    rw [List.getD_cons_succ, List.getD_eq_getElem _ _ hd,
      List.getElem_dropLast, List.getD_eq_getElem _ _ (by omega)]

theorem returns_getD_zero (P : List PVal) (h : P ≠ []) :
    (calculate_returns P).getD 0 PVal.nan = PVal.nan := by
  match P with
  | p :: rest =>
    show ((List.zipWith div (p :: rest) (PVal.nan :: (p :: rest).dropLast)).map
        (fun v => sub v (PVal.fin 1))).getD 0 PVal.nan = PVal.nan
    rw [List.zipWith_cons_cons, List.map_cons, List.getD_cons_zero,
      div_nan_right, sub_nan_left]

theorem returns_getD_succ (P : List PVal) (i : ℕ) (h : i + 1 < P.length) :
    (calculate_returns P).getD (i + 1) PVal.nan
      = sub (div (P.getD (i + 1) PVal.nan) (P.getD i PVal.nan)) (PVal.fin 1) := by
  have hz : i + 1 < (List.zipWith div P (shift1 P)).length := by
    rw [List.length_zipWith, length_shift1]; omega
  rw [calculate_returns, getD_map_of_lt _ _ _ hz _ PVal.nan,
    getD_zipWith_of_lt _ _ _ _ (by omega) (by rw [length_shift1]; omega)
      PVal.nan PVal.nan PVal.nan,
    shift1_getD P i h]

theorem countDefined_returns_zip (as bs : List ℚ) (hbs : ∀ b ∈ bs, b ≠ 0) :
    countDefined ((List.zipWith div (as.map PVal.fin) (bs.map PVal.fin)).map
        (fun v => sub v (PVal.fin 1)))
      = min as.length bs.length := by
  induction as generalizing bs with
  | nil => simp [countDefined]
  | cons a as ih =>
    cases bs with
    | nil => simp [countDefined]
    | cons b bs =>
      have hb : b ≠ 0 := hbs b (by simp)
      rw [List.map_cons, List.map_cons, List.zipWith_cons_cons, List.map_cons,
        div_fin_fin a b hb, sub_fin_fin]
      show countDefined (PVal.fin (a / b - 1) :: _) = _
      have ih2 := ih bs (fun x hx => hbs x (by simp [hx]))
      rw [countDefined] at ih2
      rw [countDefined, List.countP_cons, ih2]
      simp [Nat.succ_min_succ]

/-- C1 amended: `calculate_returns` is aligned index-for-index with the price
series; position 0 is undefined; a position whose prior price is undefined is
undefined; a position with finite current price and finite nonzero prior
price holds exactly `price[i]/price[i-1] - 1`; and for an all-positive finite
price series of length `n ≥ 2` the result has exactly `n - 1` defined values.
(The claim's further statement that a zero prior price yields an undefined
return is refuted by `returns_spec_cex`: it yields an infinity.) -/
theorem returns_spec (P : List PVal) :
    (calculate_returns P).length = P.length
    ∧ (P ≠ [] → (calculate_returns P).getD 0 PVal.nan = PVal.nan)
    ∧ (∀ i, i + 1 < P.length → P.getD i PVal.nan = PVal.nan →
        (calculate_returns P).getD (i + 1) PVal.nan = PVal.nan)
    ∧ (∀ i a b, i + 1 < P.length → P.getD i PVal.nan = PVal.fin a →
        P.getD (i + 1) PVal.nan = PVal.fin b → a ≠ 0 →
        (calculate_returns P).getD (i + 1) PVal.nan = PVal.fin (b / a - 1))
    ∧ (∀ qs : List ℚ, P = qs.map PVal.fin → (∀ q ∈ qs, 0 < q) →
        2 ≤ P.length → countDefined (calculate_returns P) = P.length - 1) := by
  refine ⟨length_calculate_returns P, returns_getD_zero P, ?_, ?_, ?_⟩
  · intro i h hnan
    rw [returns_getD_succ P i h, hnan, div_nan_right, sub_nan_left]
  · intro i a b h ha hb hane
    rw [returns_getD_succ P i h, ha, hb, div_fin_fin b a hane, sub_fin_fin]
  · rintro qs rfl hpos hlen
    match qs with
    | [] => simp at hlen
    | q :: qs' =>
      have hdl : ((q :: qs').map PVal.fin).dropLast
          = ((q :: qs').dropLast).map PVal.fin := (List.map_dropLast _ _).symm
      show countDefined ((List.zipWith div ((q :: qs').map PVal.fin)
          (PVal.nan :: ((q :: qs').map PVal.fin).dropLast)).map
          (fun v => sub v (PVal.fin 1))) = _
      rw [hdl, List.map_cons, List.zipWith_cons_cons, List.map_cons,
        div_nan_right, sub_nan_left]
      have hcnt := countDefined_returns_zip qs' ((q :: qs').dropLast)
          (fun b hb => ne_of_gt (hpos b (List.dropLast_subset _ hb)))
      rw [countDefined] at hcnt ⊢
      rw [List.countP_cons, hcnt]
      simp [List.length_dropLast]

/-- C1 counterexample: with a zero prior price the return is `+∞`
(`1/0 - 1` in float arithmetic), a defined non-NaN value — not undefined as
the claim states. -/
theorem returns_spec_cex :
    (calculate_returns [PVal.fin 0, PVal.fin 1]).getD 1 PVal.nan = PVal.pinf
    ∧ PVal.pinf ≠ PVal.nan :=
  ⟨by decide, fun h => PVal.noConfusion h⟩

theorem returns_spec_witness :
    ((calculate_returns [PVal.fin 100, PVal.fin 110]).getD 0 PVal.nan = PVal.nan)
    ∧ ((calculate_returns [PVal.nan, PVal.fin 1]).getD 1 PVal.nan = PVal.nan)
    ∧ ((calculate_returns [PVal.fin 100, PVal.fin 110]).getD 1 PVal.nan
        = PVal.fin (110 / 100 - 1))
    ∧ countDefined (calculate_returns [PVal.fin 100, PVal.fin 110]) = 2 - 1 :=
  ⟨(returns_spec [PVal.fin 100, PVal.fin 110]).2.1 (by decide),
   (returns_spec [PVal.nan, PVal.fin 1]).2.2.1 0 (by decide) rfl,
   (returns_spec [PVal.fin 100, PVal.fin 110]).2.2.2.1 0 100 110 (by decide)
     rfl rfl (by norm_num),
   (returns_spec [PVal.fin 100, PVal.fin 110]).2.2.2.2 [100, 110] rfl
     (by norm_num) (by decide)⟩

/-! ## C2: cumulative returns and NaN-skipping compounding -/

theorem cumprodGo_getD_nan (xs : List PVal) (acc : PVal) (i : ℕ)
    (h : i < xs.length) (hx : xs.getD i PVal.nan = PVal.nan) :
    (cumprodGo acc xs).getD i PVal.nan = PVal.nan := by
  induction xs generalizing acc i with
  | nil => simp at h
  | cons x r ih =>
    cases x with
    | nan =>
      show (PVal.nan :: cumprodGo acc r).getD i PVal.nan = PVal.nan
      cases i with
      | zero => rfl
      | succ j =>
        rw [List.getD_cons_succ]
        exact ih acc j (by simpa using h) (by simpa using hx)
    | fin q =>
      cases i with
      | zero => simp at hx
      | succ j =>
        show (mul acc (PVal.fin q) :: _).getD (j + 1) PVal.nan = PVal.nan
        rw [List.getD_cons_succ]
        exact ih _ j (by simpa using h) (by simpa using hx)
    | pinf =>
      cases i with
      | zero => simp at hx
      | succ j =>
        show (mul acc PVal.pinf :: _).getD (j + 1) PVal.nan = PVal.nan
        rw [List.getD_cons_succ]
        exact ih _ j (by simpa using h) (by simpa using hx)
    | ninf =>
      cases i with
      | zero => simp at hx
      | succ j =>
        show (mul acc PVal.ninf :: _).getD (j + 1) PVal.nan = PVal.nan
        rw [List.getD_cons_succ]
        exact ih _ j (by simpa using h) (by simpa using hx)

theorem cumprodGo_getD_val (xs : List PVal)
    (hfin : ∀ v ∈ xs, v ≠ PVal.pinf ∧ v ≠ PVal.ninf) (a : ℚ) (i : ℕ)
    (h : i < xs.length) (hx : xs.getD i PVal.nan ≠ PVal.nan) :
    (cumprodGo (PVal.fin a) xs).getD i PVal.nan
      = PVal.fin (a * finProd (xs.take (i + 1))) := by
  induction xs generalizing a i with
  | nil => simp at h
  | cons x r ih =>
    cases x with
    | nan =>
      cases i with
      | zero => simp at hx
      | succ j =>
        show (PVal.nan :: cumprodGo (PVal.fin a) r).getD (j + 1) PVal.nan = _
        rw [List.getD_cons_succ,
          ih (fun v hv => hfin v (by simp [hv])) a j (by simpa using h)
            (by simpa using hx)]
        simp [finProd]
    | fin q =>
      show ((PVal.fin (a * q)) :: cumprodGo (PVal.fin (a * q)) r).getD i PVal.nan = _
      cases i with
      | zero =>
        rw [List.getD_cons_zero]
        simp [finProd, List.take_zero]
      | succ j =>
        rw [List.getD_cons_succ,
          ih (fun v hv => hfin v (by simp [hv])) (a * q) j (by simpa using h)
            (by simpa using hx)]
        show PVal.fin (a * q * finProd (r.take (j + 1))) = PVal.fin (a * finProd (PVal.fin q :: r.take (j + 1)))
        show _ = PVal.fin (a * (q * finProd (r.take (j + 1))))
        rw [mul_assoc]
    | pinf => exact absurd rfl (hfin PVal.pinf (by simp)).1
    | ninf => exact absurd rfl (hfin PVal.ninf (by simp)).2

theorem finProd_map_add_one (r : List PVal)
    (hfin : ∀ v ∈ r, v ≠ PVal.pinf ∧ v ≠ PVal.ninf) :
    finProd (r.map (fun v => add (PVal.fin 1) v)) = specProdDefined r := by
  induction r with
  | nil => rfl
  | cons x t ih =>
    have iht := ih (fun v hv => hfin v (by simp [hv]))
    cases x with
    | nan => simpa [finProd, specProdDefined] using iht
    | fin q =>
      show (1 + q) * finProd (t.map _) = (1 + q) * specProdDefined t
      rw [show finProd (t.map (fun v => add (PVal.fin 1) v))
          = specProdDefined t from iht]
    | pinf => exact absurd rfl (hfin PVal.pinf (by simp)).1
    | ninf => exact absurd rfl (hfin PVal.ninf (by simp)).2

/-- C2 amended: `calculate_cumulative_returns` is aligned with the price
series; positions where the return itself is undefined are undefined; and at
positions with a defined return (in a series whose returns produce no
infinities) the value is the product of `1 + r_k` over the defined returns up
to and including that position, minus 1.  Undefined intermediate returns are
skipped by the running product (pandas NaN-skipping `cumprod`), not
propagated forward — the claim's propagation statement is refuted by
`cumulative_returns_spec_cex`. -/
theorem cumulative_returns_spec (P : List PVal) :
    (calculate_cumulative_returns P).length = P.length
    ∧ (∀ i, i < P.length → (calculate_returns P).getD i PVal.nan = PVal.nan →
        (calculate_cumulative_returns P).getD i PVal.nan = PVal.nan)
    ∧ ((∀ v ∈ calculate_returns P, v ≠ PVal.pinf ∧ v ≠ PVal.ninf) →
       ∀ i, i < P.length → (calculate_returns P).getD i PVal.nan ≠ PVal.nan →
        (calculate_cumulative_returns P).getD i PVal.nan
          = PVal.fin (specProdDefined ((calculate_returns P).take (i + 1)) - 1)) := by
  have hlenr : (calculate_returns P).length = P.length := length_calculate_returns P
  have hlenm : ((calculate_returns P).map (fun v => add (PVal.fin 1) v)).length
      = P.length := by simp [hlenr]
  have hlenc : (cumprodGo (PVal.fin 1)
      ((calculate_returns P).map (fun v => add (PVal.fin 1) v))).length
      = P.length := by rw [length_cumprodGo, hlenm]
  refine ⟨length_calculate_cumulative_returns P, ?_, ?_⟩
  · intro i hi hnan
    rw [calculate_cumulative_returns, cumprodSkipNA,
      getD_map_of_lt _ _ _ (by rw [hlenc]; exact hi) _ PVal.nan,
      cumprodGo_getD_nan _ _ i (by rw [hlenm]; exact hi) ?hx, sub_nan_left]
    case hx =>
      rw [getD_map_of_lt _ _ _ (by rw [hlenr]; exact hi) _ PVal.nan, hnan,
        add_nan_right]
  · intro hfin i hi hne
    have hfinm : ∀ v ∈ (calculate_returns P).map (fun v => add (PVal.fin 1) v),
        v ≠ PVal.pinf ∧ v ≠ PVal.ninf := by
      intro v hv
      rw [List.mem_map] at hv
      obtain ⟨u, hu, rfl⟩ := hv
      rcases hfin u hu with ⟨h1, h2⟩
      cases u with
      | nan => exact ⟨fun h => PVal.noConfusion h, fun h => PVal.noConfusion h⟩
      | fin q => exact ⟨fun h => PVal.noConfusion h, fun h => PVal.noConfusion h⟩
      | pinf => exact absurd rfl h1
      | ninf => exact absurd rfl h2
    have hmem : (calculate_returns P).getD i PVal.nan ∈ calculate_returns P := by
      rw [List.getD_eq_getElem _ _ (show i < (calculate_returns P).length by
        rw [hlenr]; exact hi)]
      exact List.getElem_mem _
    have hxne : ((calculate_returns P).map (fun v => add (PVal.fin 1) v)).getD
        i PVal.nan ≠ PVal.nan := by
      rw [getD_map_of_lt _ _ _ (by rw [hlenr]; exact hi) _ PVal.nan]
      rcases hq : (calculate_returns P).getD i PVal.nan with q | _ | _ | _
      · exact fun h => PVal.noConfusion h
      · exact absurd rfl (hfin _ (hq ▸ hmem)).1
      · exact absurd rfl (hfin _ (hq ▸ hmem)).2
      · exact absurd hq hne
    rw [calculate_cumulative_returns, cumprodSkipNA,
      getD_map_of_lt _ _ _ (by rw [hlenc]; exact hi) _ PVal.nan,
      cumprodGo_getD_val _ hfinm 1 i (by rw [hlenm]; exact hi) hxne,
      sub_fin_fin, one_mul]
    congr 1
    rw [show ((calculate_returns P).map (fun v => add (PVal.fin 1) v)).take (i + 1)
        = ((calculate_returns P).take (i + 1)).map (fun v => add (PVal.fin 1) v) by
      rw [List.map_take]]
    exact congrArg (fun p => p - 1)
      (finProd_map_add_one ((calculate_returns P).take (i + 1))
        (fun v hv => hfin v (List.take_subset _ _ hv)))

/-- C2 counterexample: in `[100, NaN, 110, 121]` the returns at positions
1 and 2 are undefined, yet the cumulative return at position 3 is the defined
value `1/10` — NaN-skipping `cumprod` resumed the product instead of
propagating undefined-ness forward as the claim states. -/
theorem cumulative_returns_spec_cex :
    (calculate_returns [PVal.fin 100, PVal.nan, PVal.fin 110, PVal.fin 121]).getD
        2 PVal.nan = PVal.nan
    ∧ (calculate_cumulative_returns
        [PVal.fin 100, PVal.nan, PVal.fin 110, PVal.fin 121]).getD 3 PVal.nan
        = PVal.fin (1/10)
    ∧ PVal.fin (1/10) ≠ PVal.nan := by
  refine ⟨rfl, ?_, fun h => PVal.noConfusion h⟩
  norm_num [calculate_cumulative_returns, calculate_returns, cumprodSkipNA,
    cumprodGo, shift1, PVal.div, PVal.mul, PVal.add, PVal.sub, PVal.neg]

theorem cumulative_returns_spec_witness :
    ((calculate_cumulative_returns [PVal.fin 100, PVal.fin 110]).getD 0 PVal.nan
      = PVal.nan)
    ∧ ((calculate_cumulative_returns [PVal.fin 100, PVal.fin 110]).getD 1 PVal.nan
      = PVal.fin (specProdDefined
          ((calculate_returns [PVal.fin 100, PVal.fin 110]).take 2) - 1)) :=
  ⟨(cumulative_returns_spec [PVal.fin 100, PVal.fin 110]).2.1 0 (by decide) rfl,
   (cumulative_returns_spec [PVal.fin 100, PVal.fin 110]).2.2
     (by
       intro v hv
       norm_num [calculate_returns, shift1, PVal.div, PVal.sub, PVal.add,
         PVal.neg, List.mem_cons] at hv
       rcases hv with rfl | rfl
       · exact ⟨fun h => PVal.noConfusion h, fun h => PVal.noConfusion h⟩
       · exact ⟨fun h => PVal.noConfusion h, fun h => PVal.noConfusion h⟩)
     1 (by decide)
     (by
       norm_num [calculate_returns, shift1, PVal.div, PVal.sub, PVal.add,
         PVal.neg]
       intro h
       exact PVal.noConfusion h)⟩

/-! ## C7: min-max normalization -/

theorem foldl_min_le_init (a : ℚ) (l : List ℚ) : l.foldl min a ≤ a := by
  induction l generalizing a with
  | nil => exact le_refl a
  | cons x t ih => exact le_trans (ih (min a x)) (min_le_left a x)

theorem foldl_min_le_mem (a x : ℚ) (l : List ℚ) (hx : x ∈ l) :
    l.foldl min a ≤ x := by
  induction l generalizing a with
  | nil => simp at hx
  | cons y t ih =>
    rcases List.mem_cons.mp hx with rfl | hx'
    · exact le_trans (foldl_min_le_init (min a x) t) (min_le_right a x)
    · exact ih (min a y) hx'

theorem foldl_min_mem (a : ℚ) (l : List ℚ) :
    l.foldl min a = a ∨ l.foldl min a ∈ l := by
  induction l generalizing a with
  | nil => exact Or.inl rfl
  | cons x t ih =>
    rcases ih (min a x) with h | h
    · rcases min_choice a x with hc | hc
      · exact Or.inl (by rw [List.foldl_cons, h, hc])
      · exact Or.inr (by rw [List.foldl_cons, h, hc]; exact List.mem_cons_self x t)
    · exact Or.inr (List.mem_cons_of_mem x h)

theorem init_le_foldl_max (a : ℚ) (l : List ℚ) : a ≤ l.foldl max a := by
  induction l generalizing a with
  | nil => exact le_refl a
  | cons x t ih => exact le_trans (le_max_left a x) (ih (max a x))

theorem mem_le_foldl_max (a x : ℚ) (l : List ℚ) (hx : x ∈ l) :
    x ≤ l.foldl max a := by
  induction l generalizing a with
  | nil => simp at hx
  | cons y t ih =>
    rcases List.mem_cons.mp hx with rfl | hx'
    · exact le_trans (le_max_right a x) (init_le_foldl_max (max a x) t)
    · exact ih (max a y) hx'

theorem foldl_max_mem (a : ℚ) (l : List ℚ) :
    l.foldl max a = a ∨ l.foldl max a ∈ l := by
  induction l generalizing a with
  | nil => exact Or.inl rfl
  | cons x t ih =>
    rcases ih (max a x) with h | h
    · rcases max_choice a x with hc | hc
      · exact Or.inl (by rw [List.foldl_cons, h, hc])
      · exact Or.inr (by rw [List.foldl_cons, h, hc]; exact List.mem_cons_self x t)
    · exact Or.inr (List.mem_cons_of_mem x h)

theorem pyMin_le_mem (vs : List ℚ) (x : ℚ) (hx : x ∈ vs) : pyMin vs ≤ x := by
  match vs, hx with
  | v :: r, hx =>
    rcases List.mem_cons.mp hx with rfl | hx'
    · exact foldl_min_le_init x r
    · exact foldl_min_le_mem v x r hx'

theorem mem_le_pyMax (vs : List ℚ) (x : ℚ) (hx : x ∈ vs) : x ≤ pyMax vs := by
  match vs, hx with
  | v :: r, hx =>
    rcases List.mem_cons.mp hx with rfl | hx'
    · exact init_le_foldl_max x r
    · exact mem_le_foldl_max v x r hx'

theorem pyMin_mem (vs : List ℚ) (h : vs ≠ []) : pyMin vs ∈ vs := by
  match vs with
  | v :: r =>
    rcases foldl_min_mem v r with h' | h'
    · simp only [pyMin]
      rw [h']
      exact List.mem_cons_self v r
    · exact List.mem_cons_of_mem v h'

theorem pyMax_mem (vs : List ℚ) (h : vs ≠ []) : pyMax vs ∈ vs := by
  match vs with
  | v :: r =>
    rcases foldl_max_mem v r with h' | h'
    · simp only [pyMax]
      rw [h']
      exact List.mem_cons_self v r
    · exact List.mem_cons_of_mem v h'

/-- C7: on a nonempty list, `normalize_minmax` succeeds; every output lies in
`[0, 1]`; when all inputs are equal every output is exactly `1`; otherwise
each value maps linearly, the minimum to `0` and the maximum to `1`; and the
spec's two concrete examples hold. -/
theorem normalize_minmax_spec (vs : List ℚ) (h : vs ≠ []) :
    (∃ out, normalize_minmax vs = some out
      ∧ out.length = vs.length
      ∧ (∀ x ∈ out, 0 ≤ x ∧ x ≤ 1)
      ∧ ((∀ a ∈ vs, ∀ b ∈ vs, a = b) → out = List.replicate vs.length 1)
      ∧ (pyMin vs ≠ pyMax vs → ∀ i, i < vs.length →
          out.getD i 0 = (vs.getD i 0 - pyMin vs) / (pyMax vs - pyMin vs)
          ∧ (vs.getD i 0 = pyMin vs → out.getD i 0 = 0)
          ∧ (vs.getD i 0 = pyMax vs → out.getD i 0 = 1)))
    ∧ normalize_minmax [5, 5, 5] = some [1, 1, 1]
    ∧ normalize_minmax [1, 2, 3] = some [0, 1/2, 1] := by
  refine ⟨?_, by norm_num [normalize_minmax, List.replicate], by norm_num [normalize_minmax]⟩
  match vs with
  | v₀ :: r =>
  have hminmem : pyMin (v₀ :: r) ∈ v₀ :: r := pyMin_mem _ (by simp)
  have hmaxmem : pyMax (v₀ :: r) ∈ v₀ :: r := pyMax_mem _ (by simp)
  by_cases hmm : r.foldl min v₀ = r.foldl max v₀
  · refine ⟨List.replicate (v₀ :: r).length 1, ?_, by simp, ?_, fun _ => rfl, ?_⟩
    · show (if r.foldl min v₀ = r.foldl max v₀ then _ else _) = _
      rw [if_pos hmm]
    · intro x hx
      rw [List.eq_of_mem_replicate hx]
      norm_num
    · intro hne
      exact absurd hmm hne
  · have hle : List.foldl min v₀ r ≤ List.foldl max v₀ r :=
      le_trans (foldl_min_le_init v₀ r) (init_le_foldl_max v₀ r)
    have hlt : List.foldl min v₀ r < List.foldl max v₀ r := lt_of_le_of_ne hle hmm
    have hpos : (0 : ℚ) < List.foldl max v₀ r - List.foldl min v₀ r := by linarith
    refine ⟨(v₀ :: r).map (fun x =>
        (x - r.foldl min v₀) / (r.foldl max v₀ - r.foldl min v₀)), ?_, by simp,
      ?_, ?_, ?_⟩
    · show (if r.foldl min v₀ = r.foldl max v₀ then _ else _) = _
      rw [if_neg hmm]
    · intro x hx
      rw [List.mem_map] at hx
      obtain ⟨v, hv, rfl⟩ := hx
      have h1 : List.foldl min v₀ r ≤ v := pyMin_le_mem (v₀ :: r) v hv
      have h2 : v ≤ List.foldl max v₀ r := mem_le_pyMax (v₀ :: r) v hv
      constructor
      · exact div_nonneg (by linarith) (le_of_lt hpos)
      · rw [div_le_one hpos]
        linarith
    · intro hall
      have heq : pyMin (v₀ :: r) = pyMax (v₀ :: r) := hall _ hminmem _ hmaxmem
      exact absurd heq hmm
    · intro _ i hi
      rw [getD_map_of_lt _ _ _ hi _ 0]
      simp only [pyMin, pyMax]
      refine ⟨by trivial, fun hv => ?_, fun hv => ?_⟩
      · rw [hv, sub_self, zero_div]
      · rw [hv]
        exact div_self (ne_of_gt hpos)

theorem normalize_minmax_spec_witness :
    normalize_minmax [5, 5, 5] = some [1, 1, 1]
    ∧ normalize_minmax [1, 2, 3] = some [0, 1/2, 1] :=
  ⟨(normalize_minmax_spec [1, 2, 3] (by decide)).2.1,
   (normalize_minmax_spec [1, 2, 3] (by decide)).2.2⟩

/-! ## C6: maximum drawdown -/

theorem emaxGo_map_fin (m : ℚ) (qs : List ℚ) :
    emaxGo (PVal.fin m) (qs.map PVal.fin) = (qPrefixMax m qs).map PVal.fin := by
  induction qs generalizing m with
  | nil => rfl
  | cons x r ih =>
    show skipStep pmax (PVal.fin m) (PVal.fin x) :: _ = _
    rw [show skipStep pmax (PVal.fin m) (PVal.fin x) = PVal.fin (max m x) from rfl]
    show _ :: emaxGo (PVal.fin (max m x)) (r.map PVal.fin) = _
    rw [ih (max m x)]
    rfl

theorem expandingMax_map_fin (q₀ : ℚ) (rest : List ℚ) :
    expandingMax ((q₀ :: rest).map PVal.fin)
      = (q₀ :: qPrefixMax q₀ rest).map PVal.fin := by
  show skipStep pmax PVal.nan (PVal.fin q₀) :: _ = _
  rw [show skipStep pmax PVal.nan (PVal.fin q₀) = PVal.fin q₀ from rfl]
  show _ :: emaxGo (PVal.fin q₀) (rest.map PVal.fin) = _
  rw [emaxGo_map_fin q₀ rest]
  rfl

theorem qPrefixMax_pos (m : ℚ) (qs : List ℚ) (hm : 0 < m) :
    ∀ x ∈ qPrefixMax m qs, 0 < x := by
  induction qs generalizing m with
  | nil => simp [qPrefixMax]
  | cons q r ih =>
    intro x hx
    rcases List.mem_cons.mp hx with rfl | hx'
    · exact lt_max_of_lt_left hm
    · exact ih (max m q) (lt_max_of_lt_left hm) x hx'

theorem drawdowns_map_fin (m : ℚ) (qs : List ℚ) (hm : 0 < m) :
    (List.zipWith div (qs.map PVal.fin) ((qPrefixMax m qs).map PVal.fin)).map
        (fun v => sub v (PVal.fin 1))
      = (qDrawdowns m qs).map PVal.fin := by
  induction qs generalizing m with
  | nil => rfl
  | cons q r ih =>
    show ((div (PVal.fin q) (PVal.fin (max m q))) :: _).map _ = _
    have hmx : max m q ≠ 0 := ne_of_gt (lt_max_of_lt_left hm)
    rw [List.map_cons, div_fin_fin q (max m q) hmx, sub_fin_fin]
    show _ :: (List.zipWith div (r.map PVal.fin)
        ((qPrefixMax (max m q) r).map PVal.fin)).map _ = _
    rw [ih (max m q) (lt_max_of_lt_left hm)]
    rfl

theorem sminGo_map_fin (a : ℚ) (l : List ℚ) :
    sminGo (PVal.fin a) (l.map PVal.fin) = PVal.fin (l.foldl min a) := by
  induction l generalizing a with
  | nil => rfl
  | cons x t ih =>
    show sminGo (skipStep pmin (PVal.fin a) (PVal.fin x)) (t.map PVal.fin) = _
    rw [show skipStep pmin (PVal.fin a) (PVal.fin x) = PVal.fin (min a x) from rfl]
    exact ih (min a x)

theorem seriesMin_map_fin (d : ℚ) (l : List ℚ) :
    seriesMin ((d :: l).map PVal.fin) = PVal.fin (l.foldl min d) := by
  show sminGo (skipStep pmin PVal.nan (PVal.fin d)) (l.map PVal.fin) = _
  rw [show skipStep pmin PVal.nan (PVal.fin d) = PVal.fin d from rfl]
  exact sminGo_map_fin d l

theorem le_foldl_min (c a : ℚ) (l : List ℚ) (hca : c ≤ a)
    (hl : ∀ x ∈ l, c ≤ x) : c ≤ l.foldl min a := by
  induction l generalizing a with
  | nil => exact hca
  | cons x t ih =>
    exact ih (min a x) (le_min hca (hl x (List.mem_cons_self x t)))
      (fun y hy => hl y (List.mem_cons_of_mem x hy))

theorem qDrawdowns_nonpos (m : ℚ) (qs : List ℚ) (hm : 0 < m)
    (hqs : ∀ q ∈ qs, 0 < q) : ∀ d ∈ qDrawdowns m qs, d ≤ 0 := by
  induction qs generalizing m with
  | nil => simp [qDrawdowns]
  | cons q r ih =>
    intro d hd
    rcases List.mem_cons.mp hd with rfl | hd'
    · have hmx : (0 : ℚ) < max m q := lt_max_of_lt_left hm
      have : q / max m q ≤ 1 := (div_le_one hmx).mpr (le_max_right m q)
      linarith
    · exact ih (max m q) (lt_max_of_lt_left hm)
        (fun x hx => hqs x (List.mem_cons_of_mem q hx)) d hd'

theorem qDrawdowns_zero_iff_chain (m : ℚ) (qs : List ℚ) (hm : 0 < m)
    (hqs : ∀ q ∈ qs, 0 < q) :
    (∀ d ∈ qDrawdowns m qs, d = 0) ↔ List.Chain (· ≤ ·) m qs := by
  induction qs generalizing m with
  | nil =>
    simp [qDrawdowns, qPrefixMax, List.Chain.nil]
  | cons q r ih =>
    have hq : 0 < q := hqs q (List.mem_cons_self q r)
    have hmx : (0 : ℚ) < max m q := lt_max_of_lt_left hm
    rw [List.chain_cons]
    show (∀ d ∈ (q / max m q - 1) :: qDrawdowns (max m q) r, d = 0) ↔ _
    constructor
    · intro hall
      have hhead : q / max m q - 1 = 0 := hall _ (List.mem_cons_self _ _)
      have hdiv : q / max m q = 1 := by linarith
      have hqeq : q = max m q := (div_eq_one_iff_eq (ne_of_gt hmx)).mp hdiv
      have hmq : m ≤ q := max_eq_right_iff.mp hqeq.symm
      refine ⟨hmq, ?_⟩
      have hmaxq : max m q = q := max_eq_right hmq
      rw [← ih q hq (fun x hx => hqs x (List.mem_cons_of_mem q hx))]
      intro d hd
      exact hall d (by rw [← hmaxq] at hd; exact List.mem_cons_of_mem _ hd)
    · rintro ⟨hmq, hchain⟩
      have hmaxq : max m q = q := max_eq_right hmq
      intro d hd
      rcases List.mem_cons.mp hd with rfl | hd'
      · rw [hmaxq, div_self (ne_of_gt hq), sub_self]
      · rw [hmaxq] at hd'
        exact (ih q hq (fun x hx => hqs x (List.mem_cons_of_mem q hx))).mpr
          hchain d hd'

/-- C6: on a nonempty all-positive finite price series, the maximum drawdown
is a finite scalar, always `≤ 0`, and it equals `0` exactly when the series
is monotonically non-decreasing. -/
theorem max_drawdown_spec (qs : List ℚ) (h : qs ≠ [])
    (hpos : ∀ q ∈ qs, 0 < q) :
    ∃ m : ℚ, calculate_max_drawdown (qs.map PVal.fin) = PVal.fin m
    ∧ m ≤ 0
    ∧ (m = 0 ↔ List.Pairwise (· ≤ ·) qs) := by
  match qs with
  | q₀ :: rest =>
  have hq₀ : 0 < q₀ := hpos q₀ (List.mem_cons_self q₀ rest)
  have hrestpos : ∀ q ∈ rest, 0 < q :=
    fun q hq => hpos q (List.mem_cons_of_mem q₀ hq)
  have hdd : ∀ d ∈ qDrawdowns q₀ rest, d ≤ 0 := qDrawdowns_nonpos q₀ rest hq₀ hrestpos
  have h00 : q₀ / q₀ - 1 = 0 := by rw [div_self (ne_of_gt hq₀)]; ring
  have hcalc : calculate_max_drawdown ((q₀ :: rest).map PVal.fin)
      = PVal.fin ((qDrawdowns q₀ rest).foldl min 0) := by
    rw [calculate_max_drawdown, expandingMax_map_fin q₀ rest]
    rw [show List.zipWith div ((q₀ :: rest).map PVal.fin)
          ((q₀ :: qPrefixMax q₀ rest).map PVal.fin)
        = div (PVal.fin q₀) (PVal.fin q₀)
          :: List.zipWith div (rest.map PVal.fin)
              ((qPrefixMax q₀ rest).map PVal.fin) from rfl,
      List.map_cons, div_fin_fin q₀ q₀ (ne_of_gt hq₀), sub_fin_fin,
      drawdowns_map_fin q₀ rest hq₀, h00]
    exact seriesMin_map_fin 0 (qDrawdowns q₀ rest)
  refine ⟨(qDrawdowns q₀ rest).foldl min 0, hcalc, foldl_min_le_init 0 _, ?_⟩
  constructor
  · intro hm0
    have hall : ∀ d ∈ qDrawdowns q₀ rest, d = 0 := by
      intro d hd
      have h1 : (qDrawdowns q₀ rest).foldl min 0 ≤ d := foldl_min_le_mem 0 d _ hd
      have h2 : d ≤ 0 := hdd d hd
      linarith
    have hchain : List.Chain (· ≤ ·) q₀ rest :=
      (qDrawdowns_zero_iff_chain q₀ rest hq₀ hrestpos).mp hall
    exact List.chain_iff_pairwise.mp hchain
  · intro hpair
    have hchain : List.Chain (· ≤ ·) q₀ rest := List.chain_iff_pairwise.mpr hpair
    have hall : ∀ d ∈ qDrawdowns q₀ rest, d = 0 :=
      (qDrawdowns_zero_iff_chain q₀ rest hq₀ hrestpos).mpr hchain
    exact le_antisymm (foldl_min_le_init 0 _)
      (le_foldl_min 0 0 _ (le_refl 0) (fun x hx => ge_of_eq (hall x hx)))

theorem max_drawdown_spec_witness :
    (∃ m : ℚ, calculate_max_drawdown (([100, 90, 99] : List ℚ).map PVal.fin) = PVal.fin m
      ∧ m ≤ 0 ∧ (m = 0 ↔ List.Pairwise (· ≤ ·) ([100, 90, 99] : List ℚ)))
    ∧ (∃ m : ℚ, calculate_max_drawdown (([100, 110, 121] : List ℚ).map PVal.fin) = PVal.fin m
      ∧ m ≤ 0 ∧ (m = 0 ↔ List.Pairwise (· ≤ ·) ([100, 110, 121] : List ℚ))) :=
  ⟨max_drawdown_spec ([100, 90, 99] : List ℚ) (by decide) (by norm_num),
   max_drawdown_spec ([100, 110, 121] : List ℚ) (by decide) (by norm_num)⟩

/-! ## C9: the Sortino computation does not mutate the caller's series -/

/-- C9: in the heap-passing translation of `calculate_sortino_ratio`, the
caller's returns object is identical before and after the call — the mask
assignment `downside_returns[downside_returns > 0] = 0` hits only the fresh
`returns.copy()` — and the result equals the pure function of the input
series. -/
theorem sortino_frame (s : ℚ → ℚ) (rf : ℚ) (w : ℕ) (store : Store) (rid : ℕ)
    (h : rid < store.length) :
    (calculate_sortino_ratio_impl s rf w store rid).1.getD rid []
      = store.getD rid []
    ∧ (calculate_sortino_ratio_impl s rf w store rid).2
      = calculate_sortino_ratio s rf w (store.getD rid []) := by
  have hgetcopy : (store ++ [store.getD rid []]).getD store.length []
      = store.getD rid [] := by
    show ((store ++ [store.getD rid []]).get? store.length).getD [] = _
    rw [List.get?_concat_length]
    rfl
  have hL : store.length < (store ++ [store.getD rid []]).length := by simp
  have hdown : ((store ++ [store.getD rid []]).set store.length
      (((store ++ [store.getD rid []]).getD store.length []).map maskPos)).getD
        store.length []
      = (store.getD rid []).map maskPos := by
    rw [hgetcopy]
    show (((store ++ [store.getD rid []]).set store.length
        ((store.getD rid []).map maskPos)).get? store.length).getD [] = _
    rw [List.get?_set_eq_of_lt _ hL]
    rfl
  constructor
  · show (((store ++ [store.getD rid []]).set store.length
        (((store ++ [store.getD rid []]).getD store.length []).map maskPos)).get?
          rid).getD []
      = (store.get? rid).getD []
    rw [List.get?_set_ne _ _ (Ne.symm (Nat.ne_of_lt h)), List.get?_append h]
  · simp only [calculate_sortino_ratio_impl, calculate_sortino_ratio]
    rw [hdown]

theorem sortino_frame_witness :
    (calculate_sortino_ratio_impl idSqrt (1/50) 2 [[PVal.fin 1, PVal.fin 2]]
        0).1.getD 0 []
      = ([[PVal.fin 1, PVal.fin 2]] : Store).getD 0 []
    ∧ (calculate_sortino_ratio_impl idSqrt (1/50) 2 [[PVal.fin 1, PVal.fin 2]]
        0).2
      = calculate_sortino_ratio idSqrt (1/50) 2
          (([[PVal.fin 1, PVal.fin 2]] : Store).getD 0 []) :=
  sortino_frame idSqrt (1/50) 2 [[PVal.fin 1, PVal.fin 2]] 0 (by decide)

/-! ## C8: rolling beta (spec-modelled) -/

theorem finVals?_none_of_mem_nan (l : List PVal) (h : PVal.nan ∈ l) :
    finVals? l = none := by
  induction l with
  | nil => simp at h
  | cons x r ih =>
    cases x with
    | nan => rfl
    | fin q =>
      have : PVal.nan ∈ r := by
        rcases List.mem_cons.mp h with h' | h'
        · exact absurd h' (fun hh => PVal.noConfusion hh)
        · exact h'
      show (finVals? r).map _ = none
      rw [ih this]
      rfl
    | pinf => rfl
    | ninf => rfl

theorem beta_getD (w : ℕ) (r mkt : List (ℤ × PVal)) (i : ℕ)
    (h : i < r.length) :
    (beta w r mkt).getD i (0, PVal.nan)
      = (if i + 1 < w then ((r.getD i (0, PVal.nan)).1, PVal.nan)
         else
           match finVals? (((r.take (i + 1)).drop (i + 1 - w)).map (·.2)),
                 finVals? (((r.take (i + 1)).drop (i + 1 - w)).map
                   (fun p => lookupDate mkt p.1)) with
           | some rv, some mv =>
               if qVarSample mv = 0 then ((r.getD i (0, PVal.nan)).1, PVal.nan)
               else ((r.getD i (0, PVal.nan)).1,
                 PVal.fin (qCovSample rv mv / qVarSample mv))
           | _, _ => ((r.getD i (0, PVal.nan)).1, PVal.nan)) := by
  rw [beta, getD_map_of_lt _ _ _ (by simpa using h) _ 0]
  rw [show (List.range r.length).getD i 0 = i by
    rw [List.getD_eq_getElem _ _ (by simpa using h)]
    simp]

theorem mem_trailing_window (r : List (ℤ × PVal)) (w i : ℕ) (h : i < r.length)
    (hw : 1 ≤ w) (hiw : ¬ i + 1 < w) :
    r.getD i (0, PVal.nan) ∈ (r.take (i + 1)).drop (i + 1 - w) := by
  have hwin : w - 1 < ((r.take (i + 1)).drop (i + 1 - w)).length := by
    simp only [List.length_drop, List.length_take]
    omega
  have hval : ((r.take (i + 1)).drop (i + 1 - w)).get ⟨w - 1, hwin⟩
      = r.getD i (0, PVal.nan) := by
    rw [List.get_eq_getElem, List.getElem_drop, List.getElem_take,
      List.getD_eq_getElem _ _ h]
    congr 1
    show i + 1 - w + (w - 1) = i
    omega
  rw [← hval]
  exact List.get_mem _ _ _

/-- C8 (modelled from the spec; `beta` is absent from the source): the beta
series is aligned index-for-index and date-for-date with the instrument's
return series; positions with fewer than `window` observations are undefined;
a position whose own date has no market value (misaligned or missing market
data) is undefined; and a position whose trailing window is fully aligned and
finite on both series, with nonzero market variance, holds the rolling
covariance divided by the rolling market variance. -/
theorem beta_spec (w : ℕ) (r mkt : List (ℤ × PVal)) :
    (beta w r mkt).length = r.length
    ∧ (∀ i, i < r.length →
        ((beta w r mkt).getD i (0, PVal.nan)).1 = (r.getD i (0, PVal.nan)).1)
    ∧ (∀ i, i < r.length → i + 1 < w →
        ((beta w r mkt).getD i (0, PVal.nan)).2 = PVal.nan)
    ∧ (∀ i, i < r.length → 1 ≤ w → ¬ i + 1 < w →
        lookupDate mkt (r.getD i (0, PVal.nan)).1 = PVal.nan →
        ((beta w r mkt).getD i (0, PVal.nan)).2 = PVal.nan)
    ∧ (∀ i rv mv, i < r.length → ¬ i + 1 < w →
        finVals? (((r.take (i + 1)).drop (i + 1 - w)).map (·.2)) = some rv →
        finVals? (((r.take (i + 1)).drop (i + 1 - w)).map
          (fun p => lookupDate mkt p.1)) = some mv →
        qVarSample mv ≠ 0 →
        ((beta w r mkt).getD i (0, PVal.nan)).2
          = PVal.fin (qCovSample rv mv / qVarSample mv)) := by
  refine ⟨by simp [beta], ?_, ?_, ?_, ?_⟩
  · intro i hi
    rw [beta_getD w r mkt i hi]
    split
    · rfl
    · split
      · split <;> rfl
      · rfl
  · intro i hi hiw
    rw [beta_getD w r mkt i hi, if_pos hiw]
  · intro i hi hw hiw hmiss
    rw [beta_getD w r mkt i hi, if_neg hiw]
    have hnan : PVal.nan ∈ ((r.take (i + 1)).drop (i + 1 - w)).map
        (fun p => lookupDate mkt p.1) := by
      rw [List.mem_map]
      exact ⟨r.getD i (0, PVal.nan), mem_trailing_window r w i hi hw hiw, hmiss⟩
    rw [finVals?_none_of_mem_nan _ hnan]
    cases finVals? (((r.take (i + 1)).drop (i + 1 - w)).map (·.2)) <;> rfl
  · intro i rv mv hi hiw hrv hmv hvar
    rw [beta_getD w r mkt i hi, if_neg hiw, hrv, hmv]
    show (if qVarSample mv = 0 then ((r.getD i (0, PVal.nan)).1, PVal.nan)
        else ((r.getD i (0, PVal.nan)).1,
          PVal.fin (qCovSample rv mv / qVarSample mv))).2 = _
    rw [if_neg hvar]

theorem beta_spec_witness :
    ((beta 2 [(0, PVal.fin 1), (1, PVal.fin 2)]
        [(0, PVal.fin 1), (1, PVal.fin 3)]).getD 0 (0, PVal.nan)).2 = PVal.nan
    ∧ ((beta 2 [(0, PVal.fin 1), (1, PVal.fin 2)]
        [(0, PVal.fin 1), (1, PVal.fin 3)]).getD 1 (0, PVal.nan)).2
      = PVal.fin (qCovSample [1, 2] [1, 3] / qVarSample [1, 3]) :=
  ⟨(beta_spec 2 [(0, PVal.fin 1), (1, PVal.fin 2)]
      [(0, PVal.fin 1), (1, PVal.fin 3)]).2.2.1 0 (by decide) (by decide),
   (beta_spec 2 [(0, PVal.fin 1), (1, PVal.fin 2)]
      [(0, PVal.fin 1), (1, PVal.fin 3)]).2.2.2.2 1 [1, 2] [1, 3] (by decide)
     (by decide) (by norm_num [finVals?, lookupDate])
     (by norm_num [finVals?, lookupDate]) (by norm_num [qVarSample, qMean])⟩

/-! ## C10: `normalize_prices` is invariant under row permutation -/

/-- C10: on a long-format table whose `(date, ticker)` pairs are unique,
`normalize_prices` gives the same output for every permutation of the rows:
the internal sort by date fixes each ticker's subsequence completely, so rows
need not arrive in chronological order. -/
theorem normalize_prices_perm (df df' : List Row) (tickers : List String)
    (hperm : df.Perm df')
    (huniq : df.Pairwise
      (fun r₁ r₂ => (r₁.date, r₁.ticker) ≠ (r₂.date, r₂.ticker))) :
    normalize_prices df tickers = normalize_prices df' tickers := by
  haveI htot : IsTotal Row (fun a b => a.date ≤ b.date) :=
    ⟨fun a b => le_total a.date b.date⟩
  haveI htrans : IsTrans Row (fun a b => a.date ≤ b.date) :=
    ⟨fun a b c hab hbc => le_trans hab hbc⟩
  haveI hanti : IsAntisymm Row (fun a b => a.date < b.date ∨ a = b) := by
    constructor
    intro a b hab hba
    rcases hab with h1 | h1
    · rcases hba with h2 | h2
      · exact absurd h2 (not_lt_of_gt h1)
      · exact h2.symm
    · exact h1
  have hsymm : Symmetric
      (fun r₁ r₂ : Row => (r₁.date, r₁.ticker) ≠ (r₂.date, r₂.ticker)) :=
    fun x y hxy he => hxy he.symm
  have key : ∀ t : String,
      (List.insertionSort (fun a b => a.date ≤ b.date) df).filter
        (fun r => r.ticker == t)
      = (List.insertionSort (fun a b => a.date ≤ b.date) df').filter
        (fun r => r.ticker == t) := by
    intro t
    set le := fun a b : Row => a.date ≤ b.date with hle
    have hp : (List.insertionSort le df).Perm (List.insertionSort le df') :=
      ((List.perm_insertionSort le df).trans hperm).trans
        (List.perm_insertionSort le df').symm
    have hpf : ((List.insertionSort le df).filter (fun r => r.ticker == t)).Perm
        ((List.insertionSort le df').filter (fun r => r.ticker == t)) :=
      hp.filter _
    have hu₁ : (List.insertionSort le df).Pairwise
        (fun r₁ r₂ => (r₁.date, r₁.ticker) ≠ (r₂.date, r₂.ticker)) :=
      ((List.perm_insertionSort le df).pairwise_iff (fun hxy => hsymm hxy)).mpr huniq
    have hu₂ : (List.insertionSort le df').Pairwise
        (fun r₁ r₂ => (r₁.date, r₁.ticker) ≠ (r₂.date, r₂.ticker)) :=
      ((List.perm_insertionSort le df').pairwise_iff (fun hxy => hsymm hxy)).mpr
        ((hperm.pairwise_iff (fun hxy => hsymm hxy)).mp huniq)
    have hstrict : ∀ (l : List Row), l.Pairwise le →
        l.Pairwise (fun r₁ r₂ => (r₁.date, r₁.ticker) ≠ (r₂.date, r₂.ticker)) →
        (l.filter (fun r => r.ticker == t)).Pairwise
          (fun a b => a.date < b.date ∨ a = b) := by
      intro l hsort huq
      have hnd : (l.filter (fun r => r.ticker == t)).Pairwise
          (fun r₁ r₂ => r₁.date ≠ r₂.date) := by
        refine List.Pairwise.imp_of_mem ?_ (huq.filter _)
        intro a b ha hb hne hdate
        have hta : a.ticker = t := by
          simpa using (List.mem_filter.mp ha).2
        have htb : b.ticker = t := by
          simpa using (List.mem_filter.mp hb).2
        exact hne (by rw [hdate, hta, htb])
      exact ((hsort.filter _).and hnd).imp
        (fun hab => Or.inl (lt_of_le_of_ne hab.1 hab.2))
    exact List.eq_of_perm_of_sorted hpf
      (hstrict _ (List.sorted_insertionSort le df) hu₁)
      (hstrict _ (List.sorted_insertionSort le df') hu₂)
  show normalizeGo _ tickers none [] = normalizeGo _ tickers none []
  rw [show (fun t => ((List.insertionSort (fun a b : Row => a.date ≤ b.date)
        df).filter (fun r => r.ticker == t)).map (fun r => (r.date, r.close)))
      = (fun t => ((List.insertionSort (fun a b : Row => a.date ≤ b.date)
        df').filter (fun r => r.ticker == t)).map (fun r => (r.date, r.close)))
    from funext fun t => by rw [key t]]

theorem normalize_prices_perm_witness :
    normalize_prices
        [⟨1, "B", PVal.fin 20⟩, ⟨0, "A", PVal.fin 10⟩, ⟨1, "A", PVal.fin 12⟩]
        ["A", "B"]
      = normalize_prices
        [⟨1, "A", PVal.fin 12⟩, ⟨1, "B", PVal.fin 20⟩, ⟨0, "A", PVal.fin 10⟩]
        ["A", "B"] :=
  normalize_prices_perm _ _ ["A", "B"] (by decide) (by decide)
